import Mathlib

/-!
Verification of the trajectory core of the `embdata` repository
(`src/embdata/trajectory.py`) against its natural-language specification.

The Python code is shallowly embedded: the lazily-cached N x D `array` of a
`Trajectory` is represented as a `List (List ℚ)` of rows of exact rationals
(the float computations of the claims are exact affine/rational arithmetic,
so ℚ models them faithfully up to floating tolerance), fallible code paths
return `Except PyError`, and the optional dataclass fields become `Option`s.
-/

set_option maxHeartbeats 1000000

namespace Embdata

/-- Python exceptions raised by the embedded code paths. -/
inductive PyError
  | valueError (msg : String)
  | typeError (msg : String)
  | indexError (msg : String)
  deriving DecidableEq

/-- Embedding of the `Trajectory` dataclass (src/embdata/trajectory.py) after
`__post_init__` has run: `steps` holds the materialized N x D matrix, and
`freq_hz`, `time_idxs`, `dim_labels` mirror the dataclass fields.  The fields
irrelevant to the claims (`angular_dims`, plotting state, map history) are
omitted; `angular_dims` only feeds the external `RotationSpline` call, which
is outside the embedded fragment. -/
structure Trajectory where
  steps : List (List ℚ)
  freq_hz : Option ℚ
  time_idxs : List ℚ
  dim_labels : List String
  deriving DecidableEq

/-- The `array` property: `np.array(self.steps)`; the steps are already kept
in matrix form here, so this is the identity view. -/
def Trajectory.array (T : Trajectory) : List (List ℚ) := T.steps

/-- Elementwise difference of two rows (`numpy` broadcasting of `-`). -/
def rowSub (a b : List ℚ) : List ℚ := List.zipWith (fun x y => x - y) a b

/-- Elementwise sum of two rows (`numpy` broadcasting of `+`). -/
def rowAdd (a b : List ℚ) : List ℚ := List.zipWith (fun x y => x + y) a b

/-- Embedding of `np.diff(array, axis=0)`: successive row differences
`row[i+1] - row[i]`, one fewer row than the input. -/
def diffRows (m : List (List ℚ)) : List (List ℚ) := List.zipWith rowSub m.tail m

/-- Running row sums continuing from an accumulated prefix sum `acc`. -/
def cumsumFrom (acc : List ℚ) : List (List ℚ) → List (List ℚ)
  | [] => []
  | r :: rs => rowAdd acc r :: cumsumFrom (rowAdd acc r) rs

/-- Embedding of `np.cumsum(array, axis=0)`: prefix sums along the step axis. -/
def cumsumRows : List (List ℚ) → List (List ℚ)
  | [] => []
  | r :: rs => r :: cumsumFrom r rs

/-- Embedding of `Trajectory.make_relative` (trajectory.py lines 260-272):
first differences along the step axis, dropping the first timestamp. -/
def Trajectory.make_relative (T : Trajectory) : Trajectory :=
  { steps := diffRows T.array
    freq_hz := T.freq_hz
    time_idxs := T.time_idxs.tail
    dim_labels := T.dim_labels }

/-- Embedding of `Trajectory.make_absolute` (trajectory.py lines 274-293):
`np.cumsum(self.array, axis=0) + initial_state`, the initial state defaulting
to a zero row (`np.zeros(self.array.shape[1])`; for a nonempty matrix
`shape[1]` is the common row width, embedded here as the width of the first
row). -/
def Trajectory.make_absolute (T : Trajectory) (initial_state : Option (List ℚ)) : Trajectory :=
  let init := initial_state.getD (List.replicate (T.array.headD []).length 0)
  { steps := (cumsumRows T.array).map (fun r => rowAdd r init)
    freq_hz := T.freq_hz
    time_idxs := T.time_idxs
    dim_labels := T.dim_labels }

lemma rowAdd_rowSub_cancel (a b : List ℚ) (h : a.length = b.length) :
    rowAdd (rowSub a b) b = a := by
  induction a generalizing b with
  | nil => simp [rowAdd, rowSub]
  | cons x xs ih =>
    cases b with
    | nil => simp at h
    | cons y ys =>
      simp only [List.length_cons] at h
      simp only [rowAdd, rowSub, List.zipWith_cons_cons, List.cons.injEq]
      exact ⟨by ring, ih ys (by omega)⟩

lemma rowAdd_rowSub_rowSub (b s u : List ℚ) (hs : s.length = b.length)
    (hu : u.length = b.length) :
    rowAdd (rowSub s b) (rowSub u s) = rowSub u b := by
  induction b generalizing s u with
  | nil =>
    cases s <;> cases u <;> simp_all [rowAdd, rowSub]
  | cons x xs ih =>
    cases s with
    | nil => simp at hs
    | cons y ys =>
      cases u with
      | nil => simp at hu
      | cons z zs =>
        simp only [List.length_cons] at hs hu
        simp only [rowAdd, rowSub, List.zipWith_cons_cons, List.cons.injEq]
        exact ⟨by ring, ih ys zs (by omega) (by omega)⟩

lemma cumsumFrom_diffRows (base : List ℚ) :
    ∀ (t : List (List ℚ)) (s : List ℚ), s.length = base.length →
      (∀ r ∈ t, r.length = base.length) →
      cumsumFrom (rowSub s base) (diffRows (s :: t)) =
        t.map (fun r => rowSub r base) := by
  intro t
  induction t with
  | nil => intro s _ _; simp [diffRows, cumsumFrom]
  | cons u t' ih =>
    intro s hs hall
    have hu : u.length = base.length := hall u (by simp)
    have hstep : rowAdd (rowSub s base) (rowSub u s) = rowSub u base :=
      rowAdd_rowSub_rowSub base s u hs hu
    simp only [diffRows, List.tail_cons, List.zipWith_cons_cons, cumsumFrom,
      hstep, List.map_cons, List.cons.injEq, true_and]
    exact ih u hu (fun r hr => hall r (by simp [hr]))

lemma cumsumRows_diffRows (r : List ℚ) (rs : List (List ℚ))
    (h : ∀ x ∈ rs, x.length = r.length) :
    cumsumRows (diffRows (r :: rs)) = rs.map (fun x => rowSub x r) := by
  cases rs with
  | nil => simp [diffRows, cumsumRows]
  | cons s t =>
    have hs : s.length = r.length := h s (by simp)
    have htail : cumsumFrom (rowSub s r) (diffRows (s :: t)) =
        t.map (fun x => rowSub x r) :=
      cumsumFrom_diffRows r t s hs (fun x hx => h x (by simp [hx]))
    simp only [diffRows, List.tail_cons, List.zipWith_cons_cons, cumsumRows,
      List.map_cons, List.cons.injEq, true_and]
    simpa [diffRows] using htail

/-- Concrete 3-step trajectory over the matrix `[[1,2,3],[4,5,6],[7,8,9]]`
at 1 Hz, as `Trajectory(array, freq_hz=1)` constructs it. -/
def trajA : Trajectory :=
  { steps := [[1, 2, 3], [4, 5, 6], [7, 8, 9]]
    freq_hz := some 1
    time_idxs := [0, 1, 2]
    dim_labels := ["Dimension 0", "Dimension 1", "Dimension 2"] }

/-- Claim C1, counterexample: for the matrix `[[1,2,3],[4,5,6],[7,8,9]]`,
`make_relative()` followed by `make_absolute(first_row)` yields the 2 x 3
matrix `[[4,5,6],[7,8,9]]`, not the original 3 x 3 matrix: the round trip
drops the first row, so the claimed reconstruction fails. -/
theorem relative_absolute_roundtrip_counterexample :
    ¬ ((trajA.make_relative.make_absolute (some [1, 2, 3])).array = trajA.array) := by
  intro h
  have hlen := congrArg List.length h
  simp [trajA, Trajectory.make_absolute, Trajectory.make_relative, Trajectory.array,
    diffRows, cumsumRows, cumsumFrom, rowAdd, rowSub] at hlen

/-- Claim C1, amended: for every trajectory with at least two steps and a
uniform row width, `make_relative()` followed by `make_absolute(first_row)`
reconstructs the original matrix with its first row dropped: the result is
exactly `matrix.tail`, of shape (N-1) x D, each entry recovered exactly. -/
theorem relative_absolute_roundtrip_tail (T : Trajectory) (D : ℕ)
    (hN : 2 ≤ T.array.length) (hw : ∀ r ∈ T.array, r.length = D) :
    (T.make_relative.make_absolute (some (T.array.headD []))).array =
      T.array.tail := by
  rcases hm : T.array with _ | ⟨r, rs⟩
  · rw [hm] at hN; simp at hN
  · have hr : r.length = D := hw r (by rw [hm]; simp)
    have hrs : ∀ x ∈ rs, x.length = r.length := by
      intro x hx
      rw [hr]
      exact hw x (by rw [hm]; simp [hx])
    have harr : (Trajectory.make_relative T).array = diffRows (r :: rs) := by
      simp only [Trajectory.make_relative, Trajectory.array] at hm ⊢
      rw [hm]
    simp only [Trajectory.make_absolute, Trajectory.array] at harr ⊢
    rw [harr, cumsumRows_diffRows r rs hrs]
    simp only [List.headD_cons, List.tail_cons, Option.getD_some, List.map_map]
    have hmap : rs.map ((fun r1 => rowAdd r1 r) ∘ fun x => rowSub x r) = rs.map id :=
      List.map_congr_left (fun x hx => rowAdd_rowSub_cancel x r (hrs x hx))
    rw [hmap, List.map_id]

/-- Witness for the amended claim C1 at the concrete 3-step trajectory. -/
theorem relative_absolute_roundtrip_tail_witness :
    (trajA.make_relative.make_absolute (some (trajA.array.headD []))).array =
      trajA.array.tail :=
  relative_absolute_roundtrip_tail trajA 3 (by decide) (by decide)

/-- Columnwise fold: reduces the rows of a matrix elementwise with `f`, as
`np.min(array, axis=0)` / `np.max(array, axis=0)` do for `f = min / max`. -/
def colFold (f : ℚ → ℚ → ℚ) : List (List ℚ) → List ℚ
  | [] => []
  | r :: rs => rs.foldl (fun acc row => List.zipWith f acc row) r

/-- Embedding of `np.min(self.array, axis=0)`: per-dimension minima. -/
def colMins (m : List (List ℚ)) : List ℚ := colFold min m

/-- Embedding of `np.max(self.array, axis=0)`: per-dimension maxima. -/
def colMaxs (m : List (List ℚ)) : List ℚ := colFold max m

/-- The affine rescaling `(x - a) / (b - a) * (d - c) + c` applied per entry
by both `make_minmax` (a,b the column min/max, c,d the requested bounds) and
`make_unminmax` (a,b the current column min/max, c,d the original bounds). -/
def affScale (x : ℚ) (p : ℚ × ℚ × ℚ × ℚ) : ℚ :=
  (x - p.1) / (p.2.1 - p.1) * (p.2.2.2 - p.2.2.1) + p.2.2.1

/-- Per-dimension parameters of `make_minmax`: column min, column max, and the
scalar target bounds. -/
def minmaxParams (mins maxs : List ℚ) (lo hi : ℚ) : List (ℚ × ℚ × ℚ × ℚ) :=
  List.zipWith (fun a b => (a, b, lo, hi)) mins maxs

/-- Pointwise 4-tuples of per-dimension parameters for `make_unminmax`. -/
def zip4 (as bs cs ds : List ℚ) : List (ℚ × ℚ × ℚ × ℚ) :=
  List.zipWith (fun a bcd => (a, bcd)) as
    (List.zipWith (fun b cd => (b, cd)) bs (cs.zip ds))

/-- Embedding of `Trajectory.make_minmax` (trajectory.py lines 550-568):
`(array - min_vals) / (max_vals - min_vals) * (max - min) + min` with
`min_vals`/`max_vals` the trajectory's own per-dimension minima/maxima. -/
def Trajectory.make_minmax (T : Trajectory) (lo hi : ℚ) : Trajectory :=
  { steps := T.array.map (fun r =>
      List.zipWith affScale r (minmaxParams (colMins T.array) (colMaxs T.array) lo hi))
    freq_hz := T.freq_hz
    time_idxs := T.time_idxs
    dim_labels := T.dim_labels }

/-- Embedding of `Trajectory.make_unminmax` (trajectory.py lines 595-605):
`(array - norm_min) / (norm_max - norm_min) * (orig_max - orig_min) + orig_min`
with `norm_min`/`norm_max` the *current* trajectory's per-dimension minima and
maxima and the caller-supplied original per-dimension bounds. -/
def Trajectory.make_unminmax (T : Trajectory) (orig_min orig_max : List ℚ) : Trajectory :=
  { steps := T.array.map (fun r =>
      List.zipWith affScale r (zip4 (colMins T.array) (colMaxs T.array) orig_min orig_max))
    freq_hz := T.freq_hz
    time_idxs := T.time_idxs
    dim_labels := T.dim_labels }

lemma affScale_mono (p : ℚ × ℚ × ℚ × ℚ) (hab : p.1 < p.2.1) (hcd : p.2.2.1 ≤ p.2.2.2)
    {x y : ℚ} (hxy : x ≤ y) : affScale x p ≤ affScale y p := by
  unfold affScale
  have hb : (0:ℚ) < p.2.1 - p.1 := by linarith
  have h1 : (x - p.1) / (p.2.1 - p.1) ≤ (y - p.1) / (p.2.1 - p.1) :=
    (div_le_div_iff_of_pos_right hb).mpr (by linarith)
  have h2 : (0:ℚ) ≤ p.2.2.2 - p.2.2.1 := by linarith
  nlinarith [mul_le_mul_of_nonneg_right h1 h2]

lemma affScale_min_comm (p : ℚ × ℚ × ℚ × ℚ) (hab : p.1 < p.2.1)
    (hcd : p.2.2.1 ≤ p.2.2.2) (x y : ℚ) :
    min (affScale x p) (affScale y p) = affScale (min x y) p := by
  rcases le_total x y with h | h
  · rw [min_eq_left h, min_eq_left (affScale_mono p hab hcd h)]
  · rw [min_eq_right h, min_eq_right (affScale_mono p hab hcd h)]

lemma affScale_max_comm (p : ℚ × ℚ × ℚ × ℚ) (hab : p.1 < p.2.1)
    (hcd : p.2.2.1 ≤ p.2.2.2) (x y : ℚ) :
    max (affScale x p) (affScale y p) = affScale (max x y) p := by
  rcases le_total x y with h | h
  · rw [max_eq_right h, max_eq_right (affScale_mono p hab hcd h)]
  · rw [max_eq_left h, max_eq_left (affScale_mono p hab hcd h)]

lemma zipWith_comm_affine (f : ℚ → ℚ → ℚ) (g : ℚ → (ℚ × ℚ × ℚ × ℚ) → ℚ) :
    ∀ (ps : List (ℚ × ℚ × ℚ × ℚ)) (a b : List ℚ),
      (∀ p ∈ ps, ∀ x y, f (g x p) (g y p) = g (f x y) p) →
      List.zipWith f (List.zipWith g a ps) (List.zipWith g b ps)
        = List.zipWith g (List.zipWith f a b) ps := by
  intro ps
  induction ps with
  | nil => intro a b _; simp
  | cons p ps' ih =>
    intro a b hps
    cases a with
    | nil => simp
    | cons x xs =>
      cases b with
      | nil => simp
      | cons y ys =>
        simp only [List.zipWith_cons_cons, List.cons.injEq]
        exact ⟨hps p (by simp) x y, ih xs ys (fun q hq => hps q (by simp [hq]))⟩

lemma foldl_zipWith_affine (f : ℚ → ℚ → ℚ) (g : ℚ → (ℚ × ℚ × ℚ × ℚ) → ℚ)
    (ps : List (ℚ × ℚ × ℚ × ℚ))
    (hps : ∀ p ∈ ps, ∀ x y, f (g x p) (g y p) = g (f x y) p) :
    ∀ (rs : List (List ℚ)) (acc : List ℚ),
      List.foldl (fun acc row => List.zipWith f acc row)
          (List.zipWith g acc ps) (rs.map (fun r => List.zipWith g r ps))
        = List.zipWith g (List.foldl (fun acc row => List.zipWith f acc row) acc rs) ps := by
  intro rs
  induction rs with
  | nil => intro acc; simp
  | cons u rs' ih =>
    intro acc
    simp only [List.map_cons, List.foldl_cons]
    rw [zipWith_comm_affine f g ps acc u hps]
    exact ih (List.zipWith f acc u)

lemma colFold_map_affine (f : ℚ → ℚ → ℚ) (g : ℚ → (ℚ × ℚ × ℚ × ℚ) → ℚ)
    (ps : List (ℚ × ℚ × ℚ × ℚ))
    (hps : ∀ p ∈ ps, ∀ x y, f (g x p) (g y p) = g (f x y) p)
    (m : List (List ℚ)) (hm : m ≠ []) :
    colFold f (m.map (fun r => List.zipWith g r ps))
      = List.zipWith g (colFold f m) ps := by
  cases m with
  | nil => exact absurd rfl hm
  | cons r rs =>
    simp only [List.map_cons, colFold]
    exact foldl_zipWith_affine f g ps hps rs r

lemma foldl_zipWith_length (f : ℚ → ℚ → ℚ) (D : ℕ) :
    ∀ (rs : List (List ℚ)) (acc : List ℚ), acc.length = D →
      (∀ x ∈ rs, x.length = D) →
      (List.foldl (fun acc row => List.zipWith f acc row) acc rs).length = D := by
  intro rs
  induction rs with
  | nil => intro acc h _; simpa using h
  | cons u rs' ih =>
    intro acc hacc hall
    simp only [List.foldl_cons]
    exact ih (List.zipWith f acc u)
      (by simp [hacc, hall u (by simp)]) (fun x hx => hall x (by simp [hx]))

lemma colFold_length (f : ℚ → ℚ → ℚ) (m : List (List ℚ)) (D : ℕ) (hm : m ≠ [])
    (hw : ∀ r ∈ m, r.length = D) : (colFold f m).length = D := by
  cases m with
  | nil => exact absurd rfl hm
  | cons r rs =>
    simp only [colFold]
    exact foldl_zipWith_length f D rs r (hw r (by simp))
      (fun x hx => hw x (by simp [hx]))

lemma minmaxParams_mem (mins maxs : List ℚ) (lo hi : ℚ)
    (hlt : ∀ q ∈ mins.zip maxs, q.1 < q.2) :
    ∀ p ∈ minmaxParams mins maxs lo hi, p.1 < p.2.1 ∧ p.2.2.1 = lo ∧ p.2.2.2 = hi := by
  induction mins generalizing maxs with
  | nil => intro p hp; simp [minmaxParams] at hp
  | cons a as ih =>
    cases maxs with
    | nil => intro p hp; simp [minmaxParams] at hp
    | cons b bs =>
      intro p hp
      simp only [minmaxParams, List.zipWith_cons_cons, List.mem_cons] at hp
      rcases hp with rfl | hp
      · exact ⟨hlt (a, b) (by simp), rfl, rfl⟩
      · exact ih bs (fun q hq => hlt q (by simp [hq])) p hp

lemma zip_affScale_mins (mins : List ℚ) :
    ∀ (maxs : List ℚ), (∀ q ∈ mins.zip maxs, q.1 < q.2) →
      List.zipWith affScale mins (minmaxParams mins maxs 0 1)
        = (mins.zip maxs).map (fun _ => (0:ℚ)) := by
  induction mins with
  | nil => intro maxs _; simp [minmaxParams]
  | cons a as ih =>
    intro maxs hlt
    cases maxs with
    | nil => simp [minmaxParams]
    | cons b bs =>
      simp only [minmaxParams, List.zipWith_cons_cons, List.zip_cons_cons,
        List.map_cons, List.cons.injEq]
      constructor
      · simp [affScale]
      · exact ih bs (fun q hq => hlt q (by simp [hq]))

lemma zip_affScale_maxs (mins : List ℚ) :
    ∀ (maxs : List ℚ), (∀ q ∈ mins.zip maxs, q.1 < q.2) →
      List.zipWith affScale maxs (minmaxParams mins maxs 0 1)
        = (mins.zip maxs).map (fun _ => (1:ℚ)) := by
  induction mins with
  | nil => intro maxs _; simp [minmaxParams]
  | cons a as ih =>
    intro maxs hlt
    cases maxs with
    | nil => simp [minmaxParams]
    | cons b bs =>
      have hab : a < b := hlt (a, b) (by simp)
      simp only [minmaxParams, List.zipWith_cons_cons, List.zip_cons_cons,
        List.map_cons, List.cons.injEq]
      constructor
      · have hne : b - a ≠ 0 := sub_ne_zero.mpr hab.ne'
        simp [affScale, div_self hne]
      · exact ih bs (fun q hq => hlt q (by simp [hq]))

lemma double_affScale (r : List ℚ) :
    ∀ (mins maxs : List ℚ), (∀ q ∈ mins.zip maxs, q.1 < q.2) →
      List.zipWith affScale (List.zipWith affScale r (minmaxParams mins maxs 0 1))
        (zip4 ((mins.zip maxs).map (fun _ => 0)) ((mins.zip maxs).map (fun _ => 1))
          mins maxs) = List.zipWith (fun x _ => x) r (mins.zip maxs) := by
  induction r with
  | nil => intro mins maxs _; simp [minmaxParams, zip4]
  | cons x xs ih =>
    intro mins maxs hlt
    cases mins with
    | nil => simp [minmaxParams, zip4]
    | cons a as =>
      cases maxs with
      | nil => simp [minmaxParams, zip4]
      | cons b bs =>
        have hab : a < b := hlt (a, b) (by simp)
        have hne : b - a ≠ 0 := sub_ne_zero.mpr hab.ne'
        simp only [minmaxParams, zip4, List.zip_cons_cons, List.map_cons,
          List.zipWith_cons_cons, List.cons.injEq]
        constructor
        · unfold affScale
          field_simp
        · exact ih as bs (fun q hq => hlt q (by simp [hq]))

lemma zipWith_fst_self (r : List ℚ) (l : List (ℚ × ℚ)) (h : r.length = l.length) :
    List.zipWith (fun x _ => x) r l = r := by
  induction r generalizing l with
  | nil => simp
  | cons x xs ih =>
    cases l with
    | nil => simp at h
    | cons p l' =>
      simp only [List.length_cons] at h
      simp only [List.zipWith_cons_cons, List.cons.injEq, true_and]
      exact ih l' (by omega)

/-- Claim C7: for every trajectory whose matrix has a uniform row width and a
non-degenerate per-dimension range (columnwise max strictly above min),
`make_minmax(0, 1)` followed by `make_unminmax(orig_min, orig_max)` with the
original per-dimension minima and maxima reconstructs the original matrix
exactly; the inverse indeed reads the normalized range off the current
(normalized) trajectory's own per-dimension min/max, which the forward pass
makes 0 and 1. -/
theorem minmax_unminmax_roundtrip (T : Trajectory) (D : ℕ)
    (hw : ∀ r ∈ T.array, r.length = D)
    (hnd : ∀ q ∈ (colMins T.array).zip (colMaxs T.array), q.1 < q.2) :
    ((T.make_minmax 0 1).make_unminmax (colMins T.array) (colMaxs T.array)).array
      = T.array := by
  rcases hm : T.array with _ | ⟨r0, rs0⟩
  · simp [Trajectory.make_minmax, Trajectory.make_unminmax, Trajectory.array] at hm ⊢
    simp [hm, colMins, colMaxs, colFold, zip4]
  · rw [← hm]
    have hne : T.array ≠ [] := by rw [hm]; simp
    set m := T.array with hmdef
    set mins := colMins m with hminsdef
    set maxs := colMaxs m with hmaxsdef
    have hminslen : mins.length = D := colFold_length min m D hne hw
    have hmaxslen : maxs.length = D := colFold_length max m D hne hw
    have hcomm_min : ∀ p ∈ minmaxParams mins maxs 0 1, ∀ x y,
        min (affScale x p) (affScale y p) = affScale (min x y) p := by
      intro p hp x y
      obtain ⟨h1, h2, h3⟩ := minmaxParams_mem mins maxs 0 1 hnd p hp
      exact affScale_min_comm p h1 (by rw [h2, h3]; norm_num) x y
    have hcomm_max : ∀ p ∈ minmaxParams mins maxs 0 1, ∀ x y,
        max (affScale x p) (affScale y p) = affScale (max x y) p := by
      intro p hp x y
      obtain ⟨h1, h2, h3⟩ := minmaxParams_mem mins maxs 0 1 hnd p hp
      exact affScale_max_comm p h1 (by rw [h2, h3]; norm_num) x y
    have harr1 : (T.make_minmax 0 1).array
        = m.map (fun r => List.zipWith affScale r (minmaxParams mins maxs 0 1)) := rfl
    have hnm : colMins ((T.make_minmax 0 1).array)
        = (mins.zip maxs).map (fun _ => (0:ℚ)) := by
      rw [harr1, colMins, colFold_map_affine min affScale _ hcomm_min m hne]
      exact zip_affScale_mins mins maxs hnd
    have hnM : colMaxs ((T.make_minmax 0 1).array)
        = (mins.zip maxs).map (fun _ => (1:ℚ)) := by
      rw [harr1, colMaxs, colFold_map_affine max affScale _ hcomm_max m hne]
      exact zip_affScale_maxs mins maxs hnd
    show ((T.make_minmax 0 1).make_unminmax mins maxs).array = m
    simp only [Trajectory.make_unminmax, Trajectory.array] at hnm hnM harr1 ⊢
    rw [hnm, hnM, harr1, List.map_map]
    have hrow : ∀ r ∈ m,
        ((fun r => List.zipWith affScale r
            (zip4 ((mins.zip maxs).map (fun _ => 0)) ((mins.zip maxs).map (fun _ => 1))
              mins maxs)) ∘
          (fun r => List.zipWith affScale r (minmaxParams mins maxs 0 1))) r = r := by
      intro r hr
      have hlen : r.length = (mins.zip maxs).length := by
        rw [List.length_zip, hminslen, hmaxslen, hw r hr]
        simp
      simp only [Function.comp_apply]
      rw [double_affScale r mins maxs hnd, zipWith_fst_self r (mins.zip maxs) hlen]
    rw [List.map_congr_left hrow]
    simp

/-- Witness for claim C7 at the concrete 3-step trajectory, whose
per-dimension ranges 1..7, 2..8, 3..9 are non-degenerate. -/
theorem minmax_unminmax_roundtrip_witness :
    ((trajA.make_minmax 0 1).make_unminmax (colMins trajA.array) (colMaxs trajA.array)).array
      = trajA.array :=
  minmax_unminmax_roundtrip trajA 3 (by decide) (by decide)

/-- Column `j` of the matrix (`array[:, j]`); out-of-range reads default to 0
and never occur for uniform-width matrices. -/
def colQ (m : List (List ℚ)) (j : ℕ) : List ℚ := m.map (fun r => r.getD j 0)

/-- Arithmetic mean of a column (`scipy.stats.describe(...).mean`). -/
def meanQ (c : List ℚ) : ℚ := c.sum / c.length

/-- k-th central moment of a column, the building block of the scipy skewness
and kurtosis estimators. -/
def centralMoment (c : List ℚ) (k : ℕ) : ℚ :=
  (c.map (fun x => (x - meanQ c) ^ k)).sum / c.length

/-- Variance as `scipy.stats.describe` computes it: the unbiased ddof=1
estimator (the `bias` flag of `describe` affects only skewness/kurtosis). -/
def varianceDescribe (c : List ℚ) : ℚ :=
  (c.map (fun x => (x - meanQ c) ^ 2)).sum / ((c.length : ℚ) - 1)

/-- Skewness as `scipy.stats.describe(..., bias=True)` computes it:
`m3 / m2 ** 1.5`, embedded over ℝ because of the real exponent. -/
noncomputable def skewnessBiased (c : List ℚ) : ℝ :=
  ((centralMoment c 3 : ℚ) : ℝ) / Real.sqrt ((centralMoment c 2 : ℚ) : ℝ) ^ 3

/-- Excess kurtosis as `scipy.stats.describe(..., bias=True)` computes it:
`m4 / m2 ** 2 - 3`. -/
def kurtosisBiased (c : List ℚ) : ℚ :=
  centralMoment c 4 / centralMoment c 2 ^ 2 - 3

/-- Minimum of a nonempty column (`np.min(array, axis=0)` per dimension). -/
def minQ : List ℚ → ℚ
  | [] => 0
  | x :: xs => xs.foldl min x

/-- Maximum of a nonempty column (`np.max(array, axis=0)` per dimension). -/
def maxQ : List ℚ → ℚ
  | [] => 0
  | x :: xs => xs.foldl max x

/-- Insertion into a sorted list, used to model numpy's ascending sort. -/
def insertSorted (x : ℚ) : List ℚ → List ℚ
  | [] => [x]
  | y :: ys => if x ≤ y then x :: y :: ys else y :: insertSorted x ys

/-- Ascending sort of a column (insertion sort; any correct sort matches the
sort numpy performs inside `np.percentile`). -/
def sortAsc (l : List ℚ) : List ℚ := l.foldr insertSorted []

/-- Embedding of `np.percentile(array, p, axis=0)` with the default linear
interpolation: on the ascending sort, position `h = (n-1) * p/100`, value
`s[floor h] + (h - floor h) * (s[floor h + 1] - s[floor h])`. -/
def percentileQ (c : List ℚ) (p : ℚ) : ℚ :=
  let s := sortAsc c
  let h : ℚ := ((s.length : ℚ) - 1) * p / 100
  let i : ℕ := (⌊h⌋).toNat
  let lo := s.getD i 0
  let hi := s.getD (i + 1) lo
  lo + (h - (i : ℚ)) * (hi - lo)

/-- Embedding of `np.count_nonzero(array, axis=0)` per dimension. -/
def nonZeroCount (c : List ℚ) : ℕ := (c.filter (fun x => x ≠ 0)).length

/-- Embedding of the `Stats` dataclass (trajectory.py lines 19-31), holding
one entry per dimension in each field. -/
structure Stats where
  mean : List ℚ
  variance : List ℚ
  skewness : List ℝ
  kurtosis : List ℚ
  min : List ℚ
  max : List ℚ
  lower_quartile : List ℚ
  median : List ℚ
  upper_quartile : List ℚ
  non_zero_count : List ℕ
  zero_count : List ℕ

/-- Embedding of the module-level `stats(array, axis=0, bias=True)` function
(trajectory.py lines 46-95): per dimension it takes the scipy `describe`
fields (mean; variance with ddof=1 — `describe` ignores the `bias` flag for
the variance; biased skewness and kurtosis), numpy min/max, the 25/50/75-th
percentiles, and the non-zero / zero entry counts
(`zero_count = N - non_zero_count`). -/
noncomputable def statsOf (m : List (List ℚ)) : Stats :=
  let cols := (List.range ((m.headD []).length)).map (colQ m)
  { mean := cols.map meanQ
    variance := cols.map varianceDescribe
    skewness := cols.map skewnessBiased
    kurtosis := cols.map kurtosisBiased
    min := cols.map minQ
    max := cols.map maxQ
    lower_quartile := cols.map (fun c => percentileQ c 25)
    median := cols.map (fun c => percentileQ c 50)
    upper_quartile := cols.map (fun c => percentileQ c 75)
    non_zero_count := cols.map nonZeroCount
    zero_count := cols.map (fun c => c.length - nonZeroCount c) }

/-- Embedding of `Trajectory.stats` (trajectory.py lines 201-209): the
module-level `stats` on the cached matrix (memoization not modelled, it does
not change the value). -/
noncomputable def Trajectory.stats (T : Trajectory) : Stats := statsOf T.array

lemma trajA_cols :
    (List.range ((trajA.array.headD []).length)).map (colQ trajA.array)
      = [[1, 4, 7], [2, 5, 8], [3, 6, 9]] := rfl

lemma centralMoment3_col0 : centralMoment [1, 4, 7] 3 = 0 := by
  norm_num [centralMoment, meanQ]

lemma centralMoment3_col1 : centralMoment [2, 5, 8] 3 = 0 := by
  norm_num [centralMoment, meanQ]

lemma centralMoment3_col2 : centralMoment [3, 6, 9] 3 = 0 := by
  norm_num [centralMoment, meanQ]

/-- Claim C4, counterexample: for the matrix `[[1,2,3],[4,5,6],[7,8,9]]` the
variance reported by `stats()` is the unbiased ddof=1 value `[9,9,9]`
(scipy's `describe` ignores the `bias` flag for the variance), not the biased
value `[6,6,6]` the claim asserts. -/
theorem stats_biased_variance_counterexample :
    (Trajectory.stats trajA).variance ≠ [6, 6, 6] := by
  have h : (Trajectory.stats trajA).variance = [9, 9, 9] := by
    simp only [Trajectory.stats, statsOf, trajA_cols, List.map_cons, List.map_nil]
    norm_num [varianceDescribe, meanQ]
  rw [h]
  intro hc
  simp at hc

/-- Claim C4, amended: for every non-empty uniform-width trajectory,
`stats()` returns per-dimension vectors of length D for every field (mean,
variance, skewness, kurtosis, min, max, the three quartiles and the zero /
non-zero counts), where the variance uses the unbiased ddof=1 estimator and
skewness/kurtosis the biased ones; for the matrix `[[1,2,3],[4,5,6],[7,8,9]]`
the mean is `[4,5,6]`, the skewness `[0,0,0]`, the min `[1,2,3]`, the max
`[7,8,9]`, and the variance `[9,9,9]` (not the biased `[6,6,6]`). -/
theorem stats_fields_spec (T : Trajectory) (D : ℕ) (hne : T.array ≠ [])
    (hw : ∀ r ∈ T.array, r.length = D) :
    (T.stats.mean.length = D ∧ T.stats.variance.length = D ∧
     T.stats.skewness.length = D ∧ T.stats.kurtosis.length = D ∧
     T.stats.min.length = D ∧ T.stats.max.length = D ∧
     T.stats.lower_quartile.length = D ∧ T.stats.median.length = D ∧
     T.stats.upper_quartile.length = D ∧ T.stats.non_zero_count.length = D ∧
     T.stats.zero_count.length = D) ∧
    (trajA.stats.mean = [4, 5, 6] ∧ trajA.stats.skewness = [0, 0, 0] ∧
     trajA.stats.min = [1, 2, 3] ∧ trajA.stats.max = [7, 8, 9] ∧
     trajA.stats.variance = [9, 9, 9]) := by
  constructor
  · have hD : (T.array.headD []).length = D := by
      cases hm : T.array with
      | nil => exact absurd hm hne
      | cons r rs =>
        simp only [List.headD_cons]
        exact hw r (by rw [hm]; simp)
    have hD' : (T.array.head?.getD []).length = D := by simpa using hD
    simp [Trajectory.stats, statsOf, hD']
  · refine ⟨?_, ?_, ?_, ?_, ?_⟩
    · simp only [Trajectory.stats, statsOf, trajA_cols, List.map_cons, List.map_nil]
      norm_num [meanQ]
    · simp only [Trajectory.stats, statsOf, trajA_cols, List.map_cons, List.map_nil,
        skewnessBiased, centralMoment3_col0, centralMoment3_col1, centralMoment3_col2]
      norm_num
    · simp only [Trajectory.stats, statsOf, trajA_cols, List.map_cons, List.map_nil]
      norm_num [minQ, min_def]
    · simp only [Trajectory.stats, statsOf, trajA_cols, List.map_cons, List.map_nil]
      norm_num [maxQ, max_def]
    · simp only [Trajectory.stats, statsOf, trajA_cols, List.map_cons, List.map_nil]
      norm_num [varianceDescribe, meanQ]

/-- Witness for the amended claim C4 at the concrete 3-step trajectory. -/
theorem stats_fields_spec_witness :
    trajA.stats.mean.length = 3 ∧ trajA.stats.variance = [9, 9, 9] := by
  have h := stats_fields_spec trajA 3 (by decide) (by decide)
  exact ⟨h.1.1, h.2.2.2.2.2⟩

/-- Embedding of the slice `array[::k, :]` for a stride `k ≥ 1`: the first
row, then every k-th row after it. -/
def sliceStep : List (List ℚ) → ℕ → List (List ℚ)
  | [], _ => []
  | r :: rs, k => r :: sliceStep (rs.drop (k - 1)) k
  termination_by m _ => m.length
  decreasing_by simp only [List.length_drop, List.length_cons]; omega

/-- Embedding of `np.linspace(a, b, n)` (endpoint included):
`a + (b - a) * i / (n - 1)` for `i < n`; a single sample sits at `a`. -/
def linspace (a b : ℚ) (n : ℕ) : List ℚ :=
  if n ≤ 1 then (List.range n).map (fun _ => a)
  else (List.range n).map (fun (i : ℕ) => a + (b - a) * (i : ℚ) / ((n : ℚ) - 1))

/-- One pass of Lagrange interpolation: each sample `p` of the second list
contributes `p.2 * prod over every other sample q of (t - q.1)/(p.1 - q.1)`,
where "every other sample" is the already-visited prefix plus the rest. -/
def lagrangeTerms : List (ℚ × ℚ) → List (ℚ × ℚ) → ℚ → ℚ
  | _, [], _ => 0
  | prev, p :: rest, t =>
      p.2 * (((prev ++ rest).map (fun q => (t - q.1) / (p.1 - q.1))).prod)
        + lagrangeTerms (prev ++ [p]) rest t

/-- Modelled from the spec: scipy's `interp1d(kind="cubic")` (missing from
src/, an external library) fits a not-a-knot cubic spline through the sample
points; on exactly four samples — the only case the claims evaluate
concretely — that spline is the unique polynomial of degree at most 3
through them, i.e. the Lagrange interpolant implemented here. -/
def lagrangeInterp (pts : List (ℚ × ℚ)) (t : ℚ) : ℚ := lagrangeTerms [] pts t

/-- Embedding of `Trajectory.resample` (trajectory.py lines 301-354).  The
per-dimension cubic interpolant built by scipy's `interp1d` is abstracted as
the parameter `interp` (given one dimension's (time, value) samples and a
query time); the error behaviour, row counts and timestamps do not depend on
it.  The rotation-spline pass for angular dims (lines 344-352) calls an
external scipy class and is outside the embedded fragment.  Python's `int()`
truncation equals the floor on the nonnegative quantities produced by
positive rates. -/
def Trajectory.resample (interp : List (ℚ × ℚ) → ℚ → ℚ) (T : Trajectory)
    (target_hz : ℚ) : Except PyError Trajectory :=
  match T.freq_hz with
  | none => .error (.valueError "Cannot resample a trajectory without a frequency")
  | some f =>
    if f = target_hz then .ok T
    else if T.array.length = 0 then
      .error (.valueError "Cannot resample an empty trajectory")
    else
      let total_duration : ℚ := ((T.array.length : ℚ) - 1) / f
      let num_samples : ℕ := (⌈total_duration * target_hz⌉ + 1).toNat
      let resampled_time_idxs := linspace 0 total_duration num_samples
      if target_hz < f then
        .ok { steps := sliceStep T.array ((⌊f / target_hz⌋).toNat)
              freq_hz := some target_hz
              time_idxs := resampled_time_idxs
              dim_labels := T.dim_labels }
      else
        if T.array.length < 4 then
          .error (.valueError
            "Cannot upsample a trajectory with bicubic interpolationwith less than 4 samples")
        else
          let src_times := (List.range T.array.length).map (fun (i : ℕ) => (i : ℚ) / f)
          .ok { steps := resampled_time_idxs.map (fun t =>
                  (List.range ((T.array.headD []).length)).map
                    (fun j => interp (src_times.zip (colQ T.array j)) t))
                freq_hz := some target_hz
                time_idxs := resampled_time_idxs
                dim_labels := T.dim_labels }

lemma linspace_length (a b : ℚ) (n : ℕ) : (linspace a b n).length = n := by
  unfold linspace
  split
  · rw [List.length_map, List.length_range]
  · rw [List.length_map, List.length_range]

lemma sliceStep_getElem? (k : ℕ) (hk : 1 ≤ k) :
    ∀ (n : ℕ) (m : List (List ℚ)), m.length ≤ n → ∀ (i : ℕ),
      (sliceStep m k)[i]? = m[i * k]? := by
  intro n
  induction n with
  | zero =>
    intro m hm i
    have : m = [] := by cases m <;> simp_all
    subst this
    simp [sliceStep]
  | succ n ih =>
    intro m hm i
    cases m with
    | nil => simp [sliceStep]
    | cons r rs =>
      cases i with
      | zero => simp [sliceStep]
      | succ i' =>
        have hdroplen : (rs.drop (k - 1)).length ≤ n := by
          simp only [List.length_cons] at hm
          simp only [List.length_drop]
          omega
        have hsm : (i' + 1) * k = ((k - 1) + i' * k) + 1 := by
          have hdistrib : (i' + 1) * k = i' * k + k := by ring
          omega
        simp only [sliceStep, List.getElem?_cons_succ]
        rw [ih (rs.drop (k - 1)) hdroplen i', List.getElem?_drop, hsm,
          List.getElem?_cons_succ]

/-- Claim C9: resampling at the trajectory's own rate is a no-op returning
the same trajectory (before any emptiness or length checks), and whenever
`resample` succeeds the result carries the target rate as its sample rate. -/
theorem resample_rate_and_identity (interp : List (ℚ × ℚ) → ℚ → ℚ)
    (T : Trajectory) (f : ℚ) (hf : T.freq_hz = some f) :
    Trajectory.resample interp T f = .ok T ∧
    ∀ (r : ℚ) (T' : Trajectory), Trajectory.resample interp T r = .ok T' →
      T'.freq_hz = some r := by
  constructor
  · simp [Trajectory.resample, hf]
  · intro r T' h
    simp only [Trajectory.resample, hf] at h
    by_cases heq : f = r
    · rw [if_pos heq] at h
      cases h
      rw [hf, heq]
    · rw [if_neg heq] at h
      by_cases hN : T.array.length = 0
      · rw [if_pos hN] at h
        cases h
      · rw [if_neg hN] at h
        by_cases hlt : r < f
        · rw [if_pos hlt] at h
          cases h
          rfl
        · rw [if_neg hlt] at h
          by_cases h4 : T.array.length < 4
          · rw [if_pos h4] at h
            cases h
          · rw [if_neg h4] at h
            cases h
            rfl

/-- Concrete 4-step trajectory over `[[1,2,3],[4,5,6],[7,8,9],[10,11,12]]`
at 1 Hz, as `Trajectory(array, freq_hz=1)` constructs it. -/
def trajB : Trajectory :=
  { steps := [[1, 2, 3], [4, 5, 6], [7, 8, 9], [10, 11, 12]]
    freq_hz := some 1
    time_idxs := [0, 1, 2, 3]
    dim_labels := ["Dimension 0", "Dimension 1", "Dimension 2"] }

lemma resample_trajB_half :
    Trajectory.resample lagrangeInterp trajB (1/2) =
      .ok { steps := [[1, 2, 3], [7, 8, 9]]
            freq_hz := some (1/2)
            time_idxs := [0, 3/2, 3]
            dim_labels := ["Dimension 0", "Dimension 1", "Dimension 2"] } := by
  have hceil : (⌈(3:ℚ)/2⌉ : ℤ) = 2 := by
    rw [Int.ceil_eq_iff]
    norm_num
  have htn : (Int.toNat 3) = 3 := rfl
  simp only [Trajectory.resample, trajB, Trajectory.array]
  norm_num [hceil, htn, linspace, List.range_succ, sliceStep, List.drop]

/-- Claim C3 (code bug): at the failing input — the 4-step trajectory at
1 Hz resampled down to 0.5 Hz — the result has 2 matrix rows but 3 time
indices: the downsampling branch decimates the rows yet emits `linspace`
timestamps whose count is `ceil(duration * target) + 1`, breaking the
one-timestamp-per-row invariant. -/
theorem resample_downsample_time_idxs_mismatch :
    ∃ T', Trajectory.resample lagrangeInterp trajB (1/2) = .ok T' ∧
      T'.steps.length = 2 ∧ T'.time_idxs.length = 3 ∧
      T'.steps.length ≠ T'.time_idxs.length := by
  refine ⟨_, resample_trajB_half, by simp, by simp, by simp⟩

/-- Claim C5: for a set source rate and a positive target rate strictly
below it, `resample` decimates by the integer stride `floor(source/target)`,
the i-th output row being source row `i * stride` (and nothing else — the
rows are exactly `[0, k, 2k, ...]`); concretely the 4-row matrix at 1 Hz
resampled to 0.5 Hz yields exactly the rows `[[1,2,3],[7,8,9]]`. -/
theorem resample_downsample_decimates (interp : List (ℚ × ℚ) → ℚ → ℚ)
    (T : Trajectory) (f target : ℚ) (hf : T.freq_hz = some f)
    (hne : T.array.length ≠ 0) (h0 : 0 < target) (hlt : target < f) :
    (∃ T', Trajectory.resample interp T target = .ok T' ∧
      T'.steps = sliceStep T.array ((⌊f / target⌋).toNat) ∧
      ∀ i : ℕ, T'.steps[i]? = T.array[i * (⌊f / target⌋).toNat]?) ∧
    (∃ T', Trajectory.resample lagrangeInterp trajB (1/2) = .ok T' ∧
      T'.steps = [[1, 2, 3], [7, 8, 9]]) := by
  constructor
  · have hne' : ¬ (f = target) := by
      intro hcontra
      rw [hcontra] at hlt
      exact lt_irrefl target hlt
    have hk : 1 ≤ (⌊f / target⌋).toNat := by
      have hone : (1 : ℚ) ≤ f / target := by
        rw [le_div_iff₀ h0]
        simpa using hlt.le
      have hfl : (1 : ℤ) ≤ ⌊f / target⌋ := by
        exact_mod_cast Int.le_floor.mpr (by exact_mod_cast hone)
      omega
    refine ⟨{ steps := sliceStep T.array ((⌊f / target⌋).toNat)
              freq_hz := some target
              time_idxs := linspace 0 (((T.array.length : ℚ) - 1) / f)
                ((⌈((T.array.length : ℚ) - 1) / f * target⌉ + 1).toNat)
              dim_labels := T.dim_labels }, ?_, rfl, ?_⟩
    · simp only [Trajectory.resample, hf, if_neg hne', if_neg hne, if_pos hlt]
    · intro i
      exact sliceStep_getElem? _ hk T.array.length T.array le_rfl i
  · exact ⟨_, resample_trajB_half, rfl⟩

/-- Witness for claim C5 at the concrete 4-step trajectory and rate 0.5. -/
theorem resample_downsample_decimates_witness :
    ∃ T', Trajectory.resample lagrangeInterp trajB (1/2) = .ok T' ∧
      T'.steps = [[1, 2, 3], [7, 8, 9]] :=
  (resample_downsample_decimates lagrangeInterp trajB 1 (1/2) rfl
    (by simp [trajB, Trajectory.array]) (by norm_num) (by norm_num)).2

/-- Witness for claim C9: the 3-step trajectory (too short to upsample, so
the other preconditions genuinely fail to hold) resampled at its own rate
still returns itself unchanged. -/
theorem resample_rate_and_identity_witness :
    Trajectory.resample lagrangeInterp trajA 1 = .ok trajA :=
  (resample_rate_and_identity lagrangeInterp trajA 1 rfl).1

lemma resample_trajB_two :
    Trajectory.resample lagrangeInterp trajB 2 =
      .ok { steps := [[1, 2, 3], [5/2, 7/2, 9/2], [4, 5, 6], [11/2, 13/2, 15/2],
                      [7, 8, 9], [17/2, 19/2, 21/2], [10, 11, 12]]
            freq_hz := some 2
            time_idxs := [0, 1/2, 1, 3/2, 2, 5/2, 3]
            dim_labels := ["Dimension 0", "Dimension 1", "Dimension 2"] } := by
  have hceil6 : (⌈((4:ℚ) - 1) / 1 * 2⌉ : ℤ) = 6 := by
    rw [Int.ceil_eq_iff]
    norm_num
  have htn : (Int.toNat 7) = 7 := rfl
  simp only [Trajectory.resample, trajB, Trajectory.array]
  norm_num [hceil6, htn, Int.ceil_ofNat, linspace, List.range_succ, colQ,
    lagrangeInterp, lagrangeTerms]

lemma resample_trajA_two :
    Trajectory.resample lagrangeInterp trajA 2 =
      .error (.valueError
        "Cannot upsample a trajectory with bicubic interpolationwith less than 4 samples") := by
  simp only [Trajectory.resample, trajA, Trajectory.array]
  norm_num

/-- Claim C6: with a set positive source rate and a target rate strictly
above it, `resample` fails (a ValueError) exactly when the trajectory has
fewer than 4 steps; on success the output has `ceil(duration * target) + 1`
rows placed at `linspace(0, duration, that count)`.  Concretely, the 4-step
trajectory at 1 Hz upsampled to 2 Hz yields 7 rows whose first and last rows
are the original endpoints, while the 3-step trajectory fails. -/
theorem resample_upsample_spec (interp : List (ℚ × ℚ) → ℚ → ℚ)
    (T : Trajectory) (f target : ℚ) (hf : T.freq_hz = some f)
    (h0 : 0 < f) (hgt : f < target) :
    ((∃ T', Trajectory.resample interp T target = .ok T') ↔ 4 ≤ T.array.length) ∧
    (∀ T', Trajectory.resample interp T target = .ok T' →
      T'.steps.length = (⌈((T.array.length : ℚ) - 1) / f * target⌉ + 1).toNat ∧
      T'.time_idxs = linspace 0 (((T.array.length : ℚ) - 1) / f)
        ((⌈((T.array.length : ℚ) - 1) / f * target⌉ + 1).toNat)) ∧
    (∃ T', Trajectory.resample lagrangeInterp trajB 2 = .ok T' ∧
      T'.steps.length = 7 ∧ T'.steps.headD [] = [1, 2, 3] ∧
      T'.steps.getLastD [] = [10, 11, 12]) ∧
    (Trajectory.resample lagrangeInterp trajA 2 =
      .error (.valueError
        "Cannot upsample a trajectory with bicubic interpolationwith less than 4 samples")) := by
  have hneq : ¬ (f = target) := ne_of_lt hgt
  have hnlt : ¬ (target < f) := not_lt.mpr hgt.le
  refine ⟨⟨?_, ?_⟩, ?_, ?_, resample_trajA_two⟩
  · rintro ⟨T', hT'⟩
    by_contra hlen
    push_neg at hlen
    simp only [Trajectory.resample, hf, if_neg hneq] at hT'
    by_cases hN : T.array.length = 0
    · rw [if_pos hN] at hT'
      exact Except.noConfusion hT'
    · rw [if_neg hN, if_neg hnlt, if_pos (by omega : T.array.length < 4)] at hT'
      exact Except.noConfusion hT'
  · intro h4
    have hN : ¬ (T.array.length = 0) := by omega
    have hn4 : ¬ (T.array.length < 4) := by omega
    refine ⟨{ steps := (linspace 0 (((T.array.length : ℚ) - 1) / f)
                ((⌈((T.array.length : ℚ) - 1) / f * target⌉ + 1).toNat)).map (fun t =>
                  (List.range ((T.array.headD []).length)).map
                    (fun j => interp (((List.range T.array.length).map
                      (fun (i : ℕ) => (i : ℚ) / f)).zip (colQ T.array j)) t))
              freq_hz := some target
              time_idxs := linspace 0 (((T.array.length : ℚ) - 1) / f)
                ((⌈((T.array.length : ℚ) - 1) / f * target⌉ + 1).toNat)
              dim_labels := T.dim_labels }, ?_⟩
    simp only [Trajectory.resample, hf, if_neg hneq, if_neg hN, if_neg hnlt, if_neg hn4]
  · intro T' hT'
    simp only [Trajectory.resample, hf, if_neg hneq] at hT'
    by_cases hN : T.array.length = 0
    · rw [if_pos hN] at hT'
      exact Except.noConfusion hT'
    · rw [if_neg hN, if_neg hnlt] at hT'
      by_cases h4 : T.array.length < 4
      · rw [if_pos h4] at hT'
        exact Except.noConfusion hT'
      · rw [if_neg h4] at hT'
        cases hT'
        exact ⟨by rw [List.length_map, linspace_length], rfl⟩
  · exact ⟨_, resample_trajB_two, by simp, by simp, by simp⟩

/-- Witness for claim C6 at the concrete 4-step trajectory, 1 Hz to 2 Hz. -/
theorem resample_upsample_spec_witness :
    ∃ T', Trajectory.resample lagrangeInterp trajB 2 = .ok T' ∧
      T'.steps.length = 7 ∧ T'.steps.headD [] = [1, 2, 3] ∧
      T'.steps.getLastD [] = [10, 11, 12] :=
  (resample_upsample_spec lagrangeInterp trajB 1 2 rfl (by norm_num) (by norm_num)).2.2.1

/-- Embedding of `Trajectory` construction through `__post_init__`
(trajectory.py lines 251-257): `dim_labels` defaults to positional labels
over the matrix width (`self.array.shape[1]`, an IndexError for an empty
matrix since `np.array([]).shape` has no second entry), and `time_idxs`
defaults to `np.arange(0, N) / self.freq_hz` — a TypeError when `freq_hz` is
`None`, because numpy cannot divide an integer array by `None`. -/
def mkTrajectory (steps : List (List ℚ)) (freq_hz : Option ℚ)
    (time_idxs : Option (List ℚ)) (dim_labels : Option (List String)) :
    Except PyError Trajectory :=
  match dim_labels, steps with
  | none, [] => .error (.indexError "tuple index out of range")
  | _, _ =>
    let labels := dim_labels.getD
      ((List.range (steps.headD []).length).map (fun (i : ℕ) => "Dimension " ++ toString i))
    match time_idxs with
    | some ts =>
      .ok { steps := steps, freq_hz := freq_hz, time_idxs := ts, dim_labels := labels }
    | none =>
      match freq_hz with
      | none => .error (.typeError "unsupported operand type(s) for /: 'int' and 'NoneType'")
      | some f =>
        .ok { steps := steps
              freq_hz := freq_hz
              time_idxs := (List.range steps.length).map (fun (i : ℕ) => (i : ℚ) / f)
              dim_labels := labels }

/-- Claim C8 (code bug): at the failing input — one step, no sample rate, no
time indices — construction raises a TypeError (`np.arange(1) / None`)
instead of succeeding as a valid untimed trajectory; the second half of the
claim does hold: with a rate and absent time indices, the timestamps are
derived as `i / rate`. -/
theorem construct_without_rate_typeerror :
    (mkTrajectory [[0]] none none none =
      .error (.typeError "unsupported operand type(s) for /: 'int' and 'NoneType'")) ∧
    (∀ (steps : List (List ℚ)) (f : ℚ) (labels : Option (List String)) (T' : Trajectory),
      mkTrajectory steps (some f) none labels = .ok T' →
      T'.time_idxs = (List.range steps.length).map (fun (i : ℕ) => (i : ℚ) / f)) := by
  constructor
  · rfl
  · intro steps f labels T' h
    cases labels with
    | none =>
      cases steps with
      | nil => exact Except.noConfusion h
      | cons r rs =>
        simp only [mkTrajectory] at h
        cases h
        rfl
    | some L =>
      cases steps with
      | nil =>
        simp only [mkTrajectory] at h
        cases h
        rfl
      | cons r rs =>
        simp only [mkTrajectory] at h
        cases h
        rfl

/-- Witness for claim C8: a one-step trajectory constructed with a 1 Hz rate
and no explicit time indices gets the derived timestamps. -/
theorem construct_without_rate_typeerror_witness :
    ∃ T', mkTrajectory [[(0:ℚ)]] (some 1) none none = .ok T' ∧
      T'.time_idxs = (List.range ([[(0:ℚ)]] : List (List ℚ)).length).map
        (fun (i : ℕ) => (i : ℚ) / 1) := by
  refine ⟨_, rfl, ?_⟩
  exact (construct_without_rate_typeerror).2 [[0]] 1 none _ rfl

/-- The seven `make_` methods of `Trajectory` with their keyword signatures,
read off trajectory.py: required parameters (no default) and optional
parameters (with a default). -/
def makeOperations : List (String × List String × List String) :=
  [("minmax", [], ["min", "max"]),
   ("pca", [], ["whiten"]),
   ("standard", [], []),
   ("unminmax", ["orig_min", "orig_max"], []),
   ("unstandard", ["mean", "std"], []),
   ("relative", [], []),
   ("absolute", [], ["initial_state"])]

/-- The operation names `transform` resolves via `getattr(self, "make_"+op)`. -/
def supportedOperations : List String := makeOperations.map Prod.fst

/-- Python binds `operation(**kwargs)` without a TypeError iff every required
parameter is supplied and every supplied keyword is a declared parameter. -/
def kwargsCompatible (sig : List String × List String) (kwargs : List String) : Bool :=
  sig.1.all (fun k => kwargs.contains k) &&
  kwargs.all (fun k => sig.1.contains k || sig.2.contains k)

/-- The two `ValueError`s raised by `Trajectory.transform` for a string
operation: an unrecognized name (the message names the operation and lists
the available `make_` methods) or keyword arguments incompatible with the
resolved method (the message names the method and echoes its signature). -/
inductive TransformError
  | unknownOperation (op : String) (available : List String)
  | badKwargs (op : String) (required optionalKw : List String)
  deriving DecidableEq

/-- Embedding of the string-dispatch path of `Trajectory.transform`
(trajectory.py lines 518-548): resolve `"make_" + operation` (the seven
methods above are the only `make_` attributes), raise the descriptive
ValueError when the name is unknown, call the method and convert a binding
TypeError into the descriptive ValueError otherwise; the success value is
the resolved method name (the resulting trajectory is produced by the
respective `make_` method, embedded separately). -/
def transformDispatch (op : String) (kwargs : List String) : Except TransformError String :=
  match makeOperations.find? (fun e => e.1 = op) with
  | none => .error (.unknownOperation op supportedOperations)
  | some e =>
      if kwargsCompatible e.2 kwargs then .ok ("make_" ++ op)
      else .error (.badKwargs ("make_" ++ op) e.2.1 e.2.2)

/-- Claim C10: string dispatch succeeds exactly when the name resolves to a
supported `make_` operation and the keyword arguments fit its signature; an
unknown name yields the ValueError naming the attempted operation and the
available operations, and incompatible kwargs yield the ValueError naming
the resolved method and its signature — no other outcome. -/
theorem transform_dispatch_spec (op : String) (kwargs : List String) :
    ((makeOperations.find? (fun e => e.1 = op)).isSome ↔ op ∈ supportedOperations) ∧
    ((∃ s, transformDispatch op kwargs = .ok s) ↔
      (∃ e, makeOperations.find? (fun e => e.1 = op) = some e ∧
        kwargsCompatible e.2 kwargs = true)) ∧
    (op ∉ supportedOperations →
      transformDispatch op kwargs = .error (.unknownOperation op supportedOperations)) ∧
    (∀ e, makeOperations.find? (fun e => e.1 = op) = some e →
      kwargsCompatible e.2 kwargs = false →
      transformDispatch op kwargs =
        .error (.badKwargs ("make_" ++ op) e.2.1 e.2.2)) := by
  refine ⟨?_, ?_, ?_, ?_⟩
  · rw [List.find?_isSome]
    constructor
    · rintro ⟨e, he, hp⟩
      simp only [decide_eq_true_eq] at hp
      exact hp ▸ List.mem_map_of_mem Prod.fst he
    · intro hmem
      obtain ⟨e, he, hfst⟩ := List.mem_map.mp hmem
      exact ⟨e, he, by simp [hfst]⟩
  · constructor
    · rintro ⟨s, hs⟩
      cases hfind : makeOperations.find? (fun e => e.1 = op) with
      | none =>
        have hd : transformDispatch op kwargs =
            .error (.unknownOperation op supportedOperations) := by
          unfold transformDispatch
          rw [hfind]
        rw [hd] at hs
        exact Except.noConfusion hs
      | some e =>
        have hd : transformDispatch op kwargs =
            (if kwargsCompatible e.2 kwargs then Except.ok ("make_" ++ op)
             else .error (.badKwargs ("make_" ++ op) e.2.1 e.2.2)) := by
          unfold transformDispatch
          rw [hfind]
        rw [hd] at hs
        by_cases hc : kwargsCompatible e.2 kwargs
        · exact ⟨e, rfl, hc⟩
        · rw [if_neg hc] at hs
          exact Except.noConfusion hs
    · rintro ⟨e, hfind, hc⟩
      refine ⟨"make_" ++ op, ?_⟩
      have hd : transformDispatch op kwargs =
          (if kwargsCompatible e.2 kwargs then Except.ok ("make_" ++ op)
           else .error (.badKwargs ("make_" ++ op) e.2.1 e.2.2)) := by
        unfold transformDispatch
        rw [hfind]
      rw [hd, if_pos hc]
  · intro hmem
    cases hfind : makeOperations.find? (fun e => e.1 = op) with
    | none =>
      unfold transformDispatch
      rw [hfind]
    | some e =>
      exfalso
      apply hmem
      have he := List.mem_of_find?_eq_some hfind
      have hp := List.find?_some hfind
      simp only [decide_eq_true_eq] at hp
      exact hp ▸ List.mem_map_of_mem Prod.fst he
  · intro e hfind hc
    have hd : transformDispatch op kwargs =
        (if kwargsCompatible e.2 kwargs then Except.ok ("make_" ++ op)
         else .error (.badKwargs ("make_" ++ op) e.2.1 e.2.2)) := by
      unfold transformDispatch
      rw [hfind]
    rw [hd, if_neg (by simp [hc])]

/-- Witness for claim C10: an unknown name and a known name with a missing
required keyword both produce the respective descriptive errors. -/
theorem transform_dispatch_spec_witness :
    transformDispatch "bogus" [] =
      .error (.unknownOperation "bogus" supportedOperations) ∧
    transformDispatch "unminmax" ["wrong"] =
      .error (.badKwargs ("make_" ++ "unminmax") ["orig_min", "orig_max"] []) := by
  constructor
  · exact (transform_dispatch_spec "bogus" []).2.2.1
      (by simp [supportedOperations, makeOperations])
  · exact (transform_dispatch_spec "unminmax" ["wrong"]).2.2.2
      ("unminmax", ["orig_min", "orig_max"], []) (by rfl)
      (by simp [kwargsCompatible])

end Embdata
